import Mathlib

set_option maxHeartbeats 4000000

namespace Aniaifu

/-!
Shallow embedding of `src/fetch_anilist_to_sqlite.py`.

Python strings are modelled as `List Char`.  Each `re.sub` / `str.replace`
call of the source is embedded as a recursive scan that mirrors the
leftmost, greedy, non-overlapping semantics of Python's `re.sub` (or
`str.replace`) for the concrete pattern appearing in the source.
-/

/-- Whitespace characters matched by Python's regex `\s` on a `str`
pattern and removed by `str.strip()`.  CPython uses one and the same
Unicode set (`Py_UNICODE_ISSPACE`) for both: `\t\n\v\f\r`, the
information separators U+001C-U+001F, the space, NEL U+0085, NBSP U+00A0,
OGHAM SPACE MARK U+1680, the typographic spaces U+2000-U+200A, LINE and
PARAGRAPH SEPARATOR U+2028/U+2029, NARROW NO-BREAK SPACE U+202F, MEDIUM
MATHEMATICAL SPACE U+205F and IDEOGRAPHIC SPACE U+3000. -/
def pyWs : List Char :=
  [' ', '\t', '\n', '\r', '\x0B', '\x0C', '\x1C', '\x1D', '\x1E', '\x1F',
   '\u0085', '\u00A0', '\u1680', '\u2000', '\u2001', '\u2002', '\u2003',
   '\u2004', '\u2005', '\u2006', '\u2007', '\u2008', '\u2009', '\u200A',
   '\u2028', '\u2029', '\u202F', '\u205F', '\u3000']

/-- Decides whether `c` is one of the Python whitespace characters. -/
def isWs (c : Char) : Bool := pyWs.contains c

/-- Index of the last `'\n'` in a list, if any. -/
def lastNlIdx : List Char → Option Nat
  | [] => none
  | c :: rest =>
    match lastNlIdx rest with
    | some k => some (k + 1)
    | none => if c = '\n' then some 0 else none

/-- Length of the match of the regex `\s+\n` anchored at the head of `l`,
if it matches there.  The regex engine greedily extends `\s+` and then
backtracks to the last `'\n'` of the maximal whitespace run, so the match
covers the run up to (and including) its last `'\n'`, which must sit at
index `≥ 1`. -/
def matchWsNl (l : List Char) : Option Nat :=
  match lastNlIdx (l.takeWhile isWs) with
  | some (k + 1) => some (k + 2)
  | _ => none

theorem matchWsNl_ge_two {l : List Char} {n : Nat} (h : matchWsNl l = some n) :
    2 ≤ n := by
  unfold matchWsNl at h
  split at h
  · injection h with h'
    omega
  · cases h

/-- Embedding of `re.sub(r"\s+\n", "\n", text)` (source line 56). -/
def subWsNl (l : List Char) : List Char :=
  match l with
  | [] => []
  | c :: rest =>
    match h : matchWsNl (c :: rest) with
    | some n => '\n' :: subWsNl ((c :: rest).drop n)
    | none => c :: subWsNl rest
termination_by l.length
decreasing_by
  · have h2 := matchWsNl_ge_two h
    simp [List.length_drop]
    omega
  · simp

theorem dropWhileLenLe (p : Char → Bool) (l : List Char) :
    (l.dropWhile p).length ≤ l.length := by
  induction l with
  | nil => simp [List.dropWhile]
  | cons c rest ih =>
    simp only [List.dropWhile]
    split
    · exact Nat.le_succ_of_le ih
    · simp

/-- Embedding of `re.sub(r"\n{3,}", "\n\n", text)` (source line 57): a
maximal run of at least three newlines is replaced by exactly two. -/
def subNl3 (l : List Char) : List Char :=
  match l with
  | [] => []
  | c :: rest =>
    if c = '\n' ∧ rest.take 2 = ['\n', '\n'] then
      '\n' :: '\n' :: subNl3 (rest.dropWhile (fun x => x = '\n'))
    else c :: subNl3 rest
termination_by l.length
decreasing_by
  · have := dropWhileLenLe (fun x => decide (x = '\n')) rest
    simp
    omega
  · simp

/-- Removal of a trailing whitespace run, the right half of `str.strip`. -/
def dropTrailWs : List Char → List Char
  | [] => []
  | c :: rest =>
    match dropTrailWs rest with
    | [] => if isWs c then [] else [c]
    | d :: t => c :: d :: t

/-- Embedding of `text.strip()` (source line 58). -/
def stripList (l : List Char) : List Char :=
  dropTrailWs (l.dropWhile isWs)

/-- Length of the match of the case-insensitive regex `<br\s*/?>` anchored
at the head of `l`, if it matches there. -/
def matchBr (l : List Char) : Option Nat :=
  match l with
  | c0 :: c1 :: c2 :: rest =>
    if c0 = '<' ∧ (c1 = 'b' ∨ c1 = 'B') ∧ (c2 = 'r' ∨ c2 = 'R') then
      match rest.drop (rest.takeWhile isWs).length with
      | s1 :: s2 :: _ =>
        if s1 = '/' ∧ s2 = '>' then some (3 + (rest.takeWhile isWs).length + 2)
        else if s1 = '>' then some (3 + (rest.takeWhile isWs).length + 1)
        else none
      | s1 :: [] =>
        if s1 = '>' then some (3 + (rest.takeWhile isWs).length + 1) else none
      | [] => none
    else none
  | _ => none

theorem matchBr_pos {l : List Char} {n : Nat} (h : matchBr l = some n) :
    0 < n := by
  unfold matchBr at h
  split at h
  · split at h
    · split at h
      · split at h
        · injection h with h'; omega
        · split at h
          · injection h with h'; omega
          · cases h
      · split at h
        · injection h with h'; omega
        · cases h
      · cases h
    · cases h
  · cases h

/-- Embedding of `re.sub(r"<br\s*/?>", "\n", text, flags=re.IGNORECASE)`
(source line 48). -/
def subBr (l : List Char) : List Char :=
  match l with
  | [] => []
  | c :: rest =>
    match h : matchBr (c :: rest) with
    | some n => '\n' :: subBr ((c :: rest).drop n)
    | none => c :: subBr rest
termination_by l.length
decreasing_by
  · have := matchBr_pos h
    simp [List.length_drop]
    omega
  · simp

/-- Index of the first `'>'` in a list, if any. -/
def firstGtIdx : List Char → Option Nat
  | [] => none
  | c :: rest => if c = '>' then some 0 else (firstGtIdx rest).map (· + 1)

/-- Embedding of `re.sub(r"<[^>]+>", "", text)` (source line 49): a `'<'`
followed by at least one non-`'>'` character and then a `'>'` is removed
entirely (contents discarded). -/
def subTag (l : List Char) : List Char :=
  match l with
  | [] => []
  | c :: rest =>
    if c = '<' then
      match firstGtIdx rest with
      | some (j + 1) => subTag (rest.drop (j + 2))
      | _ => c :: subTag rest
    else c :: subTag rest
termination_by l.length
decreasing_by
  · simp [List.length_drop]
    omega
  · simp
  · simp

/-- Decides whether `pat` occurs at the head of `l`. -/
def isPre : List Char → List Char → Bool
  | [], _ => true
  | _ :: _, [] => false
  | p :: ps, c :: rest => p == c && isPre ps rest

/-- Embedding of Python `str.replace` for a non-empty pattern `p :: ps`:
non-overlapping occurrences are substituted left to right and the
replacement text is not rescanned. -/
def replaceNE (p : Char) (ps rep : List Char) (l : List Char) : List Char :=
  match l with
  | [] => []
  | c :: rest =>
    if isPre (p :: ps) (c :: rest) then
      rep ++ replaceNE p ps rep (rest.drop ps.length)
    else c :: replaceNE p ps rep rest
termination_by l.length
decreasing_by
  · simp [List.length_drop]
    omega
  · simp

/-- Embedding of the entity-decoding chain of source lines 51-55, in the
order written there: `&amp;` is replaced first, then `&lt;`, `&gt;`,
`&quot;`, `&#39;`.  Each pattern is passed to `replaceNE` split into its
head `'&'` and its tail. -/
def decodeEntities (l : List Char) : List Char :=
  replaceNE '&' "#39;".data "'".data
    (replaceNE '&' "quot;".data "\"".data
      (replaceNE '&' "gt;".data ">".data
        (replaceNE '&' "lt;".data "<".data
          (replaceNE '&' "amp;".data "&".data l))))

/-- Embedding of `clean_description` (source lines 45-58).  The guard
`if not text` of line 46 is the empty-string test, since the callers only
pass strings. -/
def cleanDescription (l : List Char) : List Char :=
  if l = [] then []
  else stripList (subNl3 (subWsNl (decodeEntities (subTag (subBr l)))))

/-- String-valued wrapper of `cleanDescription`. -/
def cleanDescriptionS (s : String) : String :=
  String.mk (cleanDescription s.data)

/-- Decides whether `pat` occurs anywhere in `l` as a contiguous block. -/
def containsPat (pat : List Char) : List Char → Bool
  | [] => isPre pat []
  | c :: rest => isPre pat (c :: rest) || containsPat pat rest

/-- Property of a character list: no whitespace character is immediately
followed by a newline.  This is exactly the set of strings on which the
regex `\s+\n` has no match. -/
def noWsNl : List Char → Bool
  | a :: b :: rest => (!(isWs a && decide (b = '\n'))) && noWsNl (b :: rest)
  | _ => true

/-! Record Mapper: the raw AniList item shape requested by the GraphQL
query, and the row dictionary built in the body of `main`'s `for m in
media` loop (source lines 128-146).  Every nested field may be absent or
null, which the source handles with `.get` and `or` defaulting. -/

/-- A `{name: ...}` object as it appears in `tags` and `studios.nodes`;
the name itself may be null. -/
structure NamedObj where
  name : Option String
deriving DecidableEq, Repr

/-- The `title {romaji english}` object; either variant may be null. -/
structure TitleObj where
  romaji : Option String
  english : Option String
deriving DecidableEq, Repr

/-- The `studios(isMain: true) {nodes {name}}` object. -/
structure StudiosObj where
  nodes : Option (List (Option NamedObj))
deriving DecidableEq, Repr

/-- One raw media item of a page: every field of the GraphQL selection,
each possibly absent/null. -/
structure Item where
  id : Option Int
  title : Option TitleObj
  description : Option String
  genres : Option (List String)
  tags : Option (List (Option NamedObj))
  averageScore : Option Int
  studios : Option StudiosObj
deriving DecidableEq, Repr

/-- One row of the `anime` table, with the list-valued columns stored as
their JSON serializations, exactly as the source inserts them. -/
structure Row where
  id : Option Int
  title_romaji : Option String
  title_english : Option String
  description : String
  genres : String
  tags : String
  average_score : Option Int
  studios : String
deriving DecidableEq, Repr

/-- Python truthiness of `t.get("name")`: a missing or null name is falsy,
and so is the empty string. -/
def strTruthy : Option String → Bool
  | none => false
  | some s => s ≠ ""

/-- Embedding of the comprehensions of source lines 130 and 132:
`[x.get("name") for x in nodes if x and x.get("name")]`.  A null element,
an element with a null/missing name, and an element with an empty-string
name are all dropped. -/
def extractNames (nodes : List (Option NamedObj)) : List String :=
  nodes.filterMap fun t =>
    match t with
    | some tv => if strTruthy tv.name then tv.name else none
    | none => none

/-- Escape of one character inside a JSON string literal (the inputs
considered here contain no control characters). -/
def jsonEscapeChar (c : Char) : List Char :=
  if c = '"' ∨ c = '\\' then ['\\', c] else [c]

/-- A JSON string literal. -/
def jsonStr (s : String) : List Char :=
  '"' :: (s.data.map jsonEscapeChar).flatten ++ ['"']

/-- Embedding of `json.dumps(xs, ensure_ascii=False)` for a list of
strings: elements separated by `", "` inside brackets. -/
def jsonDumps (xs : List String) : String :=
  String.mk ('[' :: (List.intersperse ", ".data (xs.map jsonStr)).flatten ++ [']'])

/-- Embedding of the row dictionary built for one media item (source
lines 129-143). -/
def mapRow (m : Item) : Row :=
  { id := m.id
    title_romaji := m.title.bind TitleObj.romaji
    title_english := m.title.bind TitleObj.english
    description := cleanDescriptionS (m.description.getD "")
    genres := jsonDumps (m.genres.getD [])
    tags := jsonDumps (extractNames (m.tags.getD []))
    average_score := m.averageScore
    studios := jsonDumps (extractNames ((m.studios.map StudiosObj.nodes).getD none |>.getD [])) }

/-- One iteration of the accumulation loop of source lines 128-146: the
row is appended only when its `id` is not null (source line 145). -/
def buildStep (rows : List Row) (m : Item) : List Row :=
  let row := mapRow m
  if row.id.isSome then rows ++ [row] else rows

/-- Embedding of the accumulation loop of source lines 127-146: rows are
appended in order. -/
def buildRows (media : List Item) : List Row :=
  media.foldl buildStep []

/-! Store: the `anime` table is modelled as a list of rows in insertion
order.  `INSERT ... ON CONFLICT(id) DO UPDATE SET` with every non-key
column set to `excluded.<col>` replaces the whole conflicting row in
place, otherwise it appends. -/

/-- Embedding of one upsert statement execution of `upsert_batch` (source
lines 85-98). -/
def upsertRow (store : List Row) (r : Row) : List Row :=
  if store.any (fun x => x.id = r.id) then
    store.map (fun x => if x.id = r.id then r else x)
  else store ++ [r]

/-- Embedding of `upsert_batch`: `executemany` runs the statement once per
row, in order. -/
def upsertBatch (store : List Row) (rows : List Row) : List Row :=
  rows.foldl upsertRow store

/-! Pipeline Driver: the `while has_next and page <= args.pages` loop of
`main` (source lines 111-156).  The fetcher is abstracted as a function of
the page number and of the number of failed attempts already made on that
page (so that a mock fetcher can fail and then succeed); each call's
outcome mirrors what `fetch_page` can do as seen from `main`. -/

/-- The page container returned by a successful `fetch_page` call. -/
structure Envelope where
  hasNextPage : Bool
  media : List Item
deriving DecidableEq, Repr

/-- Outcome of one `fetch_page(page, per_page)` call as observed by
`main`:
`success` — 2xx response with a data payload;
`httpError` — `requests.HTTPError` raised by `resp.raise_for_status()` on
a non-2xx response, carrying `e.response.status_code` when present;
`timeoutError` — `requests.Timeout` raised by `requests.post` when the
30-second per-call timeout elapses (not a subclass of `HTTPError`);
`connectionError` — `requests.ConnectionError` on a transport failure (not
a subclass of `HTTPError`);
`protocolError` — the `RuntimeError` raised on a service error list
(source line 66). -/
inductive FetchOutcome where
  | success (env : Envelope)
  | httpError (status : Option Nat)
  | timeoutError
  | connectionError
  | protocolError
deriving DecidableEq, Repr

/-- The uncaught exceptions that propagate out of the loop: `main`'s
`except requests.HTTPError` clause catches none of these. -/
inductive RunError where
  | timeoutError
  | connectionError
  | protocolError
deriving DecidableEq, Repr

/-- Embedding of `wait = 5 if status == 429 else 3` (source line 121). -/
def retryWait (status : Option Nat) : Nat :=
  if status = some 429 then 5 else 3

/-- State of the driver loop: the loop variables of `main` plus, for the
harness, the per-page failed-attempt counter used to index the mock
fetcher, the log of pages passed to `fetch_page` (one entry per call), and
the log of retry diagnostics `(page, wait)` printed on line 122. -/
structure DState where
  page : Nat
  attempt : Nat
  hasNext : Bool
  store : List Row
  total : Nat
  fetchLog : List Nat
  waitLog : List (Nat × Nat)
deriving DecidableEq, Repr

/-- How a run of `main`'s loop ends: `done` — the loop condition became
false and the summary line is printed; `aborted` — an uncaught exception
propagated, terminating the process with the store as committed so far. -/
inductive RunResult where
  | done (st : DState)
  | aborted (e : RunError) (st : DState)
deriving DecidableEq, Repr

/-- Result of one iteration of the loop body: either the loop continues
with an updated state, or an uncaught exception halts the run. -/
inductive StepResult where
  | cont (st : DState)
  | halt (r : RunResult)
deriving DecidableEq, Repr

/-- State update of one successful iteration (source lines 126-155):
the page is mapped and upserted (only a non-empty batch is sent to the
store, `if rows:` on line 148), the running total grows by the batch
length, `has_next` is read from the envelope, and the page number
advances. -/
def advanceState (st : DState) (env : Envelope) : DState :=
  let rows := buildRows env.media
  { page := st.page + 1
    attempt := 0
    hasNext := env.hasNextPage
    store := if rows = [] then st.store else upsertBatch st.store rows
    total := if rows = [] then st.total else st.total + rows.length
    fetchLog := st.fetchLog ++ [st.page]
    waitLog := st.waitLog }

/-- State update of the `except requests.HTTPError` handler (source lines
119-124): the page number is unchanged, a retry diagnostic `(page, wait)`
is recorded, and the loop continues at the same page. -/
def retryState (st : DState) (s : Option Nat) : DState :=
  { st with
    attempt := st.attempt + 1
    fetchLog := st.fetchLog ++ [st.page]
    waitLog := st.waitLog ++ [(st.page, retryWait s)] }

/-- State carried out of the loop by an uncaught exception: the failed
fetch call is still recorded. -/
def abortState (st : DState) : DState :=
  { st with fetchLog := st.fetchLog ++ [st.page] }

/-- One iteration of the loop body of source lines 117-155, classified by
the outcome of the `fetch_page` call: only `requests.HTTPError` is caught
(retry, same page); a timeout, a connection failure or the service-error
`RuntimeError` are uncaught and halt the run. -/
def driveBody (fetch : Nat → Nat → FetchOutcome) (st : DState) : StepResult :=
  match fetch st.page st.attempt with
  | .success env => .cont (advanceState st env)
  | .httpError s => .cont (retryState st s)
  | .timeoutError => .halt (.aborted .timeoutError (abortState st))
  | .connectionError => .halt (.aborted .connectionError (abortState st))
  | .protocolError => .halt (.aborted .protocolError (abortState st))

/-- Embedding of `while has_next and page <= args.pages` (source lines
116-155), fuel-indexed: `none` means the loop did not terminate within
`fuel` iterations (the unbounded retry makes the loop genuinely
non-terminating against an always-failing fetcher). -/
def drive (fetch : Nat → Nat → FetchOutcome) (pages : Nat) :
    Nat → DState → Option RunResult
  | fuel, st =>
    if st.hasNext = true ∧ st.page ≤ pages then
      match fuel with
      | 0 => none
      | fuel + 1 =>
        match driveBody fetch st with
        | .cont st' => drive fetch pages fuel st'
        | .halt r => some r
    else some (.done st)

/-- The state at the start of `main`'s loop: `total_inserted = 0`,
`has_next = True`, `page = 1`, empty table. -/
def initState : DState :=
  { page := 1, attempt := 0, hasNext := true, store := [], total := 0
    fetchLog := [], waitLog := [] }

/-- A run of `main` against a fetcher that never raises.  `pages + 1` fuel
is always enough: the page number increases on every iteration, so the
loop body runs at most `pages` times. -/
def runOk (fetch : Nat → Envelope) (pages : Nat) : Option RunResult :=
  drive (fun p _ => .success (fetch p)) pages (pages + 1) initState

/-- Number of rows the mapper produces from page `p` of a fetcher, i.e.
the number of items on that page whose `id` is not null. -/
def mappedCount (fetch : Nat → Envelope) (p : Nat) : Nat :=
  (buildRows (fetch p).media).length

/-- The final loop state of a run, whether it ended in `done` or
`aborted`. -/
def finalState : Option RunResult → Option DState
  | some (.done st) => some st
  | some (.aborted _ st) => some st
  | none => none

/-! Lemmas about the Normalizer. -/

theorem matchBr_some_head {l : List Char} {n : Nat} (h : matchBr l = some n) :
    ∃ t, l = '<' :: t := by
  unfold matchBr at h
  split at h
  next c0 c1 c2 rest =>
    split at h
    next hcond => exact ⟨c1 :: c2 :: rest, by rw [hcond.1]⟩
    next => cases h
  next => cases h

theorem subBr_eq_of_notMem {l : List Char} (h : '<' ∉ l) : subBr l = l := by
  induction l using subBr.induct with
  | case1 => simp [subBr]
  | case2 c rest n hm ih =>
    obtain ⟨t, ht⟩ := matchBr_some_head hm
    exact absurd (by rw [ht]; exact List.mem_cons_self _ _) h
  | case3 c rest hm ih =>
    have hr : '<' ∉ rest := fun hx => h (List.mem_cons_of_mem _ hx)
    rw [subBr]
    split
    next n heq => rw [hm] at heq; cases heq
    next => rw [ih hr]

theorem subTag_eq_of_notMem {l : List Char} (h : '<' ∉ l) : subTag l = l := by
  induction l using subTag.induct with
  | case1 => simp [subTag]
  | case2 rest k hk ih =>
    exact absurd (List.mem_cons_self _ _) h
  | case3 rest hk ih =>
    exact absurd (List.mem_cons_self _ _) h
  | case4 c rest hc ih =>
    have hr : '<' ∉ rest := fun hx => h (List.mem_cons_of_mem _ hx)
    rw [subTag]
    simp only [if_neg hc]
    rw [ih hr]

theorem isPre_cons_head {p c : Char} {ps rest : List Char}
    (h : isPre (p :: ps) (c :: rest) = true) : p = c := by
  rw [isPre] at h
  exact eq_of_beq (Bool.and_elim_left h)

theorem replaceNE_eq_of_notMem {p : Char} {ps rep l : List Char} (h : p ∉ l) :
    replaceNE p ps rep l = l := by
  induction l using replaceNE.induct p ps rep with
  | case1 => simp [replaceNE]
  | case2 c rest hpre ih =>
    exact absurd (by rw [isPre_cons_head hpre]; exact List.mem_cons_self _ _) h
  | case3 c rest hpre ih =>
    have hr : p ∉ rest := fun hx => h (List.mem_cons_of_mem _ hx)
    rw [replaceNE]
    simp only [if_neg hpre]
    rw [ih hr]

theorem replaceNE_eq_of_not_containsPat {p : Char} {ps rep l : List Char}
    (h : containsPat (p :: ps) l = false) : replaceNE p ps rep l = l := by
  induction l using replaceNE.induct p ps rep with
  | case1 => simp [replaceNE]
  | case2 c rest hpre ih =>
    rw [containsPat] at h
    simp [hpre] at h
  | case3 c rest hpre ih =>
    rw [containsPat] at h
    have h2 : containsPat (p :: ps) rest = false := by
      cases hx : containsPat (p :: ps) rest with
      | false => rfl
      | true => simp [hx] at h
    rw [replaceNE]
    simp only [if_neg hpre]
    rw [ih h2]

theorem lastNlIdx_none_iff {l : List Char} : lastNlIdx l = none ↔ '\n' ∉ l := by
  induction l with
  | nil => simp [lastNlIdx]
  | cons c rest ih =>
    rw [lastNlIdx]
    constructor
    · intro h
      cases hr : lastNlIdx rest with
      | some k => rw [hr] at h; cases h
      | none =>
        rw [hr] at h
        intro hmem
        rcases List.mem_cons.1 hmem with h1 | h2
        · rw [← h1] at h; simp at h
        · exact (ih.1 hr) h2
    · intro h
      have hc : c ≠ '\n' := fun hx => h (hx ▸ List.mem_cons_self _ _)
      have hr : '\n' ∉ rest := fun hx => h (List.mem_cons_of_mem _ hx)
      rw [ih.2 hr]
      simp [Ne.symm hc, fun hx : c = '\n' => hc hx]

theorem lastNlIdx_mem_drop {l : List Char} {k : Nat} (h : lastNlIdx l = some k) :
    '\n' ∈ l.drop k := by
  induction l generalizing k with
  | nil => cases h
  | cons c rest ih =>
    rw [lastNlIdx] at h
    cases hr : lastNlIdx rest with
    | some k' =>
      rw [hr] at h
      injection h with h'
      subst h'
      simpa using ih hr
    | none =>
      rw [hr] at h
      by_cases hc : c = '\n'
      · rw [if_pos hc] at h
        injection h with h'
        subst h'
        simp [hc]
      · rw [if_neg hc] at h
        cases h

theorem lastNlIdx_lt {l : List Char} {k : Nat} (h : lastNlIdx l = some k) :
    k < l.length := by
  induction l generalizing k with
  | nil => cases h
  | cons c rest ih =>
    rw [lastNlIdx] at h
    cases hr : lastNlIdx rest with
    | some k' =>
      rw [hr] at h
      injection h with h'
      subst h'
      simpa using ih hr
    | none =>
      rw [hr] at h
      by_cases hc : c = '\n'
      · rw [if_pos hc] at h
        injection h with h'
        subst h'
        simp
      · rw [if_neg hc] at h
        cases h

theorem lastNlIdx_notMem_after {l : List Char} {k : Nat} (h : lastNlIdx l = some k) :
    '\n' ∉ l.drop (k + 1) := by
  induction l generalizing k with
  | nil => cases h
  | cons c rest ih =>
    rw [lastNlIdx] at h
    cases hr : lastNlIdx rest with
    | some k' =>
      rw [hr] at h
      injection h with h'
      subst h'
      simpa using ih hr
    | none =>
      rw [hr] at h
      by_cases hc : c = '\n'
      · rw [if_pos hc] at h
        injection h with h'
        subst h'
        simpa using lastNlIdx_none_iff.1 hr
      · rw [if_neg hc] at h
        cases h

theorem boolAndTrue {a b : Bool} (h : (a && b) = true) : a = true ∧ b = true :=
  ⟨Bool.and_elim_left h, Bool.and_elim_right h⟩

theorem boolNotTrue {b : Bool} (h : ¬b = true) : b = false := by
  cases b with
  | false => rfl
  | true => exact absurd rfl h

theorem takeWhile_drop_comm {p : Char → Bool} {l : List Char} {n : Nat}
    (h : n ≤ (l.takeWhile p).length) :
    (l.drop n).takeWhile p = (l.takeWhile p).drop n := by
  induction n generalizing l with
  | zero => simp
  | succ n ih =>
    cases l with
    | nil => simp at h
    | cons c rest =>
      by_cases hc : p c
      · rw [List.takeWhile_cons, if_pos hc] at h ⊢
        simp only [List.length_cons] at h
        simpa using ih (Nat.le_of_succ_le_succ h)
      · rw [List.takeWhile_cons, if_neg hc] at h
        simp at h

theorem matchWsNl_some_le {l : List Char} {n : Nat} (h : matchWsNl l = some n) :
    n ≤ (l.takeWhile isWs).length := by
  unfold matchWsNl at h
  split at h
  next k heq =>
    injection h with h'
    have := lastNlIdx_lt heq
    omega
  next => cases h

theorem matchWsNl_drop_no_nl {l : List Char} {n : Nat} (h : matchWsNl l = some n) :
    '\n' ∉ (l.drop n).takeWhile isWs := by
  have hle := matchWsNl_some_le h
  rw [takeWhile_drop_comm hle]
  unfold matchWsNl at h
  split at h
  next k heq =>
    injection h with h'
    subst h'
    exact lastNlIdx_notMem_after heq
  next => cases h

theorem matchWsNl_mem {l : List Char} {n : Nat} (h : matchWsNl l = some n) :
    '\n' ∈ l.takeWhile isWs := by
  unfold matchWsNl at h
  split at h
  next k heq =>
    by_contra hmem
    rw [lastNlIdx_none_iff.2 hmem] at heq
    cases heq
  next => cases h

theorem matchWsNl_cons_ws {c : Char} {l : List Char} (hc : isWs c = true)
    (hm : '\n' ∈ l.takeWhile isWs) : ∃ n, matchWsNl (c :: l) = some n := by
  obtain ⟨k, hk⟩ : ∃ k, lastNlIdx (l.takeWhile isWs) = some k := by
    cases hx : lastNlIdx (l.takeWhile isWs) with
    | some k => exact ⟨k, rfl⟩
    | none => exact absurd hm (lastNlIdx_none_iff.1 hx)
  refine ⟨k + 2, ?_⟩
  unfold matchWsNl
  rw [List.takeWhile_cons, if_pos hc, lastNlIdx, hk]

theorem noWsNl_tail {c : Char} {l : List Char} (h : noWsNl (c :: l) = true) :
    noWsNl l = true := by
  cases l with
  | nil => rfl
  | cons b t =>
    rw [noWsNl] at h
    exact Bool.and_elim_right h

theorem noWsNl_cons_of {a : Char} {xs : List Char}
    (h1 : ∀ b t, xs = b :: t → (isWs a && decide (b = '\n')) = false)
    (h2 : noWsNl xs = true) : noWsNl (a :: xs) = true := by
  cases xs with
  | nil => rfl
  | cons b t =>
    rw [noWsNl, h1 b t rfl, h2]
    rfl

theorem noWsNl_tw_drop1 {l : List Char} (h : noWsNl l = true) :
    '\n' ∉ (l.takeWhile isWs).drop 1 := by
  induction l with
  | nil => simp
  | cons a rest ih =>
    by_cases ha : isWs a
    · rw [List.takeWhile_cons, if_pos ha, List.drop_one, List.tail_cons]
      cases rest with
      | nil => simp
      | cons b t =>
        have hcons : (isWs a && decide (b = '\n')) = false ∧ noWsNl (b :: t) = true := by
          rw [noWsNl] at h
          obtain ⟨hx, hy⟩ := boolAndTrue h
          refine ⟨?_, hy⟩
          cases hz : (isWs a && decide (b = '\n')) with
          | false => rfl
          | true => rw [hz] at hx; cases hx
        have hb : b ≠ '\n' := by
          intro hbe
          rw [ha, hbe] at hcons
          simpa using hcons.1
        by_cases hwb : isWs b
        · rw [List.takeWhile_cons, if_pos hwb]
          intro hmem
          rcases List.mem_cons.1 hmem with h1 | h2
          · exact hb h1.symm
          · have := ih (noWsNl_tail h)
            rw [List.takeWhile_cons, if_pos hwb, List.drop_one, List.tail_cons] at this
            exact this h2
        · rw [List.takeWhile_cons, if_neg hwb]
          simp
    · rw [List.takeWhile_cons, if_neg ha]
      simp

theorem matchWsNl_none_of_noWsNl {l : List Char} (h : noWsNl l = true) :
    matchWsNl l = none := by
  cases hx : matchWsNl l with
  | none => rfl
  | some n =>
    exfalso
    unfold matchWsNl at hx
    split at hx
    next k heq =>
      have hmem := lastNlIdx_mem_drop heq
      have hmem1 : '\n' ∈ (l.takeWhile isWs).drop 1 := by
        have hdd : (l.takeWhile isWs).drop (k + 1) =
            ((l.takeWhile isWs).drop 1).drop k := by
          rw [List.drop_drop, Nat.add_comm]
        rw [hdd] at hmem
        exact List.drop_subset _ _ hmem
      exact noWsNl_tw_drop1 h hmem1
    next => cases hx

theorem subWsNl_eq_of_noWsNl {l : List Char} (h : noWsNl l = true) :
    subWsNl l = l := by
  induction l using subWsNl.induct with
  | case1 => simp [subWsNl]
  | case2 c rest n hm ih =>
    rw [matchWsNl_none_of_noWsNl h] at hm
    cases hm
  | case3 c rest hm ih =>
    rw [subWsNl]
    split
    next n heq => rw [hm] at heq; cases heq
    next => rw [ih (noWsNl_tail h)]

theorem subWsNl_head_nl {l t : List Char} (h : subWsNl l = '\n' :: t) :
    '\n' ∈ l.takeWhile isWs := by
  cases l with
  | nil => simp [subWsNl] at h
  | cons c rest =>
    rw [subWsNl] at h
    split at h
    next n heq => exact matchWsNl_mem heq
    next heq =>
      injection h with h1 h2
      subst h1
      rw [List.takeWhile_cons, if_pos (by decide)]
      exact List.mem_cons_self _ _

theorem noWsNl_subWsNl (l : List Char) : noWsNl (subWsNl l) = true := by
  induction l using subWsNl.induct with
  | case1 =>
    have h0 : subWsNl [] = [] := by simp [subWsNl]
    rw [h0]
    rfl
  | case2 c rest n hm ih =>
    rw [subWsNl]
    split
    next n' heq =>
      have hn : n' = n := by rw [hm] at heq; injection heq with h'; exact h'.symm
      subst hn
      apply noWsNl_cons_of
      · intro b t hbt
        by_cases hb : b = '\n'
        · exfalso
          subst hb
          exact matchWsNl_drop_no_nl heq (subWsNl_head_nl hbt)
        · simp [hb]
      · exact ih
    next heq => rw [hm] at heq; cases heq
  | case3 c rest hm ih =>
    rw [subWsNl]
    split
    next n heq => rw [hm] at heq; cases heq
    next =>
      apply noWsNl_cons_of
      · intro b t hbt
        by_cases hc : isWs c
        · by_cases hb : b = '\n'
          · exfalso
            subst hb
            obtain ⟨n, hn⟩ := matchWsNl_cons_ws hc (subWsNl_head_nl hbt)
            rw [hm] at hn
            cases hn
          · simp [hb]
        · rw [boolNotTrue hc]
          rfl
      · exact ih

theorem subNl3_eq_of_noWsNl {l : List Char} (h : noWsNl l = true) :
    subNl3 l = l := by
  induction l using subNl3.induct with
  | case1 => simp [subNl3]
  | case2 c rest hcond ih =>
    exfalso
    obtain ⟨hc, htake⟩ := hcond
    subst hc
    cases rest with
    | nil => simp at htake
    | cons b t =>
      have hb : b = '\n' := by
        injection htake
      rw [noWsNl] at h
      obtain ⟨hx, _⟩ := boolAndTrue h
      rw [hb] at hx
      exact absurd hx (by decide)
  | case3 c rest hcond ih =>
    rw [subNl3, if_neg hcond]
    rw [ih (noWsNl_tail h)]

theorem noWsNl_dropWhile (p : Char → Bool) {l : List Char} (h : noWsNl l = true) :
    noWsNl (l.dropWhile p) = true := by
  induction l with
  | nil => simpa using h
  | cons c rest ih =>
    rw [List.dropWhile_cons]
    by_cases hc : p c
    · rw [if_pos hc]
      exact ih (noWsNl_tail h)
    · rw [if_neg hc]
      exact h

theorem dropTrailWs_head {c d : Char} {rest t : List Char}
    (h : dropTrailWs (c :: rest) = d :: t) : d = c := by
  rw [dropTrailWs] at h
  split at h
  · split at h
    · cases h
    · injection h with h1 h2
      exact h1.symm
  · injection h with h1 h2
    exact h1.symm

theorem noWsNl_dropTrailWs {l : List Char} (h : noWsNl l = true) :
    noWsNl (dropTrailWs l) = true := by
  induction l with
  | nil => rfl
  | cons c rest ih =>
    have ih' := ih (noWsNl_tail h)
    rw [dropTrailWs]
    cases hdr : dropTrailWs rest with
    | nil =>
      by_cases hc : isWs c
      · rw [if_pos hc]
        rfl
      · rw [if_neg hc]
        rfl
    | cons d t' =>
      cases rest with
      | nil => cases hdr
      | cons r0 r1 =>
        have hd : d = r0 := dropTrailWs_head hdr
        rw [hdr] at ih'
        have h1 : (isWs c && decide (r0 = '\n')) = false := by
          rw [noWsNl] at h
          obtain ⟨hx, _⟩ := boolAndTrue h
          cases hz : (isWs c && decide (r0 = '\n')) with
          | false => rfl
          | true => rw [hz] at hx; cases hx
        rw [noWsNl]
        subst hd
        rw [h1, ih']
        rfl

theorem dropWhile_head_not {p : Char → Bool} {l : List Char} {c : Char} {t : List Char}
    (h : l.dropWhile p = c :: t) : p c = false := by
  induction l with
  | nil => cases h
  | cons a rest ih =>
    rw [List.dropWhile_cons] at h
    by_cases ha : p a
    · rw [if_pos ha] at h
      exact ih h
    · rw [if_neg ha] at h
      injection h with h1 _
      subst h1
      cases hb : p a with
      | false => rfl
      | true => exact absurd hb ha

theorem dropTrailWs_idem (l : List Char) :
    dropTrailWs (dropTrailWs l) = dropTrailWs l := by
  induction l with
  | nil => rfl
  | cons c rest ih =>
    rw [dropTrailWs]
    cases hdr : dropTrailWs rest with
    | nil =>
      by_cases hc : isWs c
      · rw [if_pos hc]
        rfl
      · rw [if_neg hc]
        rw [dropTrailWs]
        rw [show dropTrailWs [] = [] from rfl, if_neg hc]
    | cons d t' =>
      rw [hdr] at ih
      rw [dropTrailWs, ih]

theorem noWsNl_stripList {l : List Char} (h : noWsNl l = true) :
    noWsNl (stripList l) = true :=
  noWsNl_dropTrailWs (noWsNl_dropWhile isWs h)

theorem decodeEntities_eq_of_no_amp {l : List Char} (h : '&' ∉ l) :
    decodeEntities l = l := by
  unfold decodeEntities
  rw [replaceNE_eq_of_notMem h, replaceNE_eq_of_notMem h,
      replaceNE_eq_of_notMem h, replaceNE_eq_of_notMem h,
      replaceNE_eq_of_notMem h]

theorem decodeEntities_eq_of_no_entities {l : List Char}
    (hamp : containsPat "&amp;".data l = false)
    (hlt : containsPat "&lt;".data l = false)
    (hgt : containsPat "&gt;".data l = false)
    (hquot : containsPat "&quot;".data l = false)
    (h39 : containsPat "&#39;".data l = false) :
    decodeEntities l = l := by
  rw [(by decide : "&amp;".data = '&' :: "amp;".data)] at hamp
  rw [(by decide : "&lt;".data = '&' :: "lt;".data)] at hlt
  rw [(by decide : "&gt;".data = '&' :: "gt;".data)] at hgt
  rw [(by decide : "&quot;".data = '&' :: "quot;".data)] at hquot
  rw [(by decide : "&#39;".data = '&' :: "#39;".data)] at h39
  unfold decodeEntities
  rw [replaceNE_eq_of_not_containsPat hamp,
      replaceNE_eq_of_not_containsPat hlt,
      replaceNE_eq_of_not_containsPat hgt,
      replaceNE_eq_of_not_containsPat hquot,
      replaceNE_eq_of_not_containsPat h39]

theorem stripList_idem (l : List Char) : stripList (stripList l) = stripList l := by
  unfold stripList
  cases hdt : dropTrailWs (l.dropWhile isWs) with
  | nil => rfl
  | cons d t =>
    obtain ⟨t', ht'⟩ : ∃ t', l.dropWhile isWs = d :: t' := by
      cases hx : l.dropWhile isWs with
      | nil => rw [hx] at hdt; cases hdt
      | cons a b =>
        rw [hx] at hdt
        exact ⟨b, by rw [dropTrailWs_head hdt]⟩
    have hdnot : isWs d = false := dropWhile_head_not ht'
    rw [List.dropWhile_cons, if_neg (by simp [hdnot])]
    rw [← hdt, dropTrailWs_idem]

theorem cleanDescription_expand {l : List Char} (h : l ≠ []) :
    cleanDescription l =
      stripList (subNl3 (subWsNl (decodeEntities (subTag (subBr l))))) := by
  unfold cleanDescription
  rw [if_neg h]

theorem cleanDescription_fix {l : List Char}
    (h1 : '<' ∉ cleanDescription l) (h2 : '&' ∉ cleanDescription l) :
    cleanDescription (cleanDescription l) = cleanDescription l := by
  by_cases hl : l = []
  · subst hl
    rfl
  · have hr : cleanDescription l =
        stripList (subWsNl (decodeEntities (subTag (subBr l)))) := by
      rw [cleanDescription_expand hl, subNl3_eq_of_noWsNl (noWsNl_subWsNl _)]
    have hnws : noWsNl (cleanDescription l) = true := by
      rw [hr]
      exact noWsNl_stripList (noWsNl_subWsNl _)
    by_cases hrE : cleanDescription l = []
    · rw [hrE]
      rfl
    · rw [cleanDescription_expand hrE, subBr_eq_of_notMem h1,
        subTag_eq_of_notMem h1, decodeEntities_eq_of_no_amp h2,
        subWsNl_eq_of_noWsNl hnws, subNl3_eq_of_noWsNl hnws, hr,
        stripList_idem, ← hr]

theorem cleanDescription_plain {l : List Char}
    (hbr : subBr l = l) (htag : subTag l = l)
    (hamp : containsPat "&amp;".data l = false)
    (hlt : containsPat "&lt;".data l = false)
    (hgt : containsPat "&gt;".data l = false)
    (hquot : containsPat "&quot;".data l = false)
    (h39 : containsPat "&#39;".data l = false)
    (hws : noWsNl l = true) :
    cleanDescription l = stripList l := by
  by_cases hl : l = []
  · subst hl
    rfl
  · rw [cleanDescription_expand hl, hbr, htag,
      decodeEntities_eq_of_no_entities hamp hlt hgt hquot h39,
      subWsNl_eq_of_noWsNl hws, subNl3_eq_of_noWsNl hws]

/-! Lemmas about the Store. -/

theorem mapIfId (s : List Row) (r : Row) :
    (s.map (fun x => if x.id = r.id then r else x)).map Row.id = s.map Row.id := by
  induction s with
  | nil => rfl
  | cons a t ih =>
    simp only [List.map_cons, ih]
    by_cases ha : a.id = r.id
    · rw [if_pos ha, ha]
    · rw [if_neg ha]

theorem upsertRow_nodup {s : List Row} (r : Row)
    (h : (s.map Row.id).Nodup) : ((upsertRow s r).map Row.id).Nodup := by
  unfold upsertRow
  split
  next hany =>
    rw [mapIfId]
    exact h
  next hany =>
    rw [List.map_append]
    rw [List.nodup_append]
    refine ⟨h, List.nodup_singleton _, ?_⟩
    intro a ha hb
    rw [List.map_singleton, List.mem_singleton] at hb
    subst hb
    obtain ⟨x, hx, hxid⟩ := List.mem_map.1 ha
    exact hany (List.any_eq_true.2 ⟨x, hx, by simp [hxid]⟩)

theorem upsertBatch_nodup {s : List Row} (rows : List Row)
    (h : (s.map Row.id).Nodup) : ((upsertBatch s rows).map Row.id).Nodup := by
  induction rows generalizing s with
  | nil => exact h
  | cons a t ih => exact ih (upsertRow_nodup a h)

theorem filter_id_nil {s : List Row} {i : Option Int}
    (h : ∀ x ∈ s, x.id ≠ i) : s.filter (fun x => x.id = i) = [] := by
  induction s with
  | nil => rfl
  | cons a t ih =>
    rw [List.filter_cons]
    rw [if_neg (by simpa using h a (List.mem_cons_self _ _))]
    exact ih (fun x hx => h x (List.mem_cons_of_mem _ hx))

theorem map_if_id_eq_self {s : List Row} {r : Row}
    (h : ∀ x ∈ s, x.id ≠ r.id) :
    s.map (fun x => if x.id = r.id then r else x) = s := by
  induction s with
  | nil => rfl
  | cons a t ih =>
    rw [List.map_cons, if_neg (h a (List.mem_cons_self _ _)),
      ih (fun x hx => h x (List.mem_cons_of_mem _ hx))]

theorem filter_map_if_of_mem {s : List Row} {r : Row}
    (hnd : (s.map Row.id).Nodup) (hmem : ∃ x ∈ s, x.id = r.id) :
    (s.map (fun x => if x.id = r.id then r else x)).filter
      (fun x => x.id = r.id) = [r] := by
  induction s with
  | nil =>
    obtain ⟨x, hx, _⟩ := hmem
    cases hx
  | cons a t ih =>
    have hnd' : (a.id :: t.map Row.id).Nodup := by simpa using hnd
    rw [List.map_cons, List.filter_cons]
    by_cases ha : a.id = r.id
    · rw [if_pos ha, if_pos (by simp)]
      have hno : ∀ x ∈ t, x.id ≠ r.id := by
        intro x hx hxe
        exact (List.nodup_cons.1 hnd').1
          (List.mem_map.2 ⟨x, hx, by rw [hxe, ← ha]⟩)
      rw [map_if_id_eq_self hno, filter_id_nil hno]
    · rw [if_neg ha, if_neg (by simpa using ha)]
      apply ih (List.nodup_cons.1 hnd').2
      obtain ⟨x, hx, hxe⟩ := hmem
      rcases List.mem_cons.1 hx with h1 | h2
      · subst h1
        exact absurd hxe ha
      · exact ⟨x, h2, hxe⟩

theorem upsertRow_filter {s : List Row} (r : Row)
    (hnd : (s.map Row.id).Nodup) :
    (upsertRow s r).filter (fun x => x.id = r.id) = [r] := by
  unfold upsertRow
  split
  next hany =>
    apply filter_map_if_of_mem hnd
    obtain ⟨x, hx, he⟩ := List.any_eq_true.1 hany
    exact ⟨x, hx, by simpa using he⟩
  next hany =>
    rw [List.filter_append]
    have hno : ∀ x ∈ s, x.id ≠ r.id := by
      intro x hx he
      exact hany (List.any_eq_true.2 ⟨x, hx, by simp [he]⟩)
    rw [filter_id_nil hno]
    simp

/-! Lemmas about the Mapper. -/

theorem mapRow_id (m : Item) : (mapRow m).id = m.id := rfl

theorem foldl_buildStep (media : List Item) (acc : List Row) :
    media.foldl buildStep acc =
      acc ++ (media.filter (fun m => m.id.isSome)).map mapRow := by
  induction media generalizing acc with
  | nil => simp
  | cons m t ih =>
    rw [List.foldl_cons, List.filter_cons]
    cases hm : m.id.isSome with
    | true =>
      have hstep : buildStep acc m = acc ++ [mapRow m] := by
        unfold buildStep
        rw [if_pos (show (mapRow m).id.isSome = true from hm)]
      rw [hstep, ih]
      simp [List.append_assoc]
    | false =>
      have hstep : buildStep acc m = acc := by
        unfold buildStep
        rw [if_neg (by rw [show (mapRow m).id = m.id from rfl, hm]; simp)]
      rw [hstep, ih]
      simp [hm]

theorem buildRows_eq (media : List Item) :
    buildRows media = (media.filter (fun m => m.id.isSome)).map mapRow := by
  unfold buildRows
  rw [foldl_buildStep]
  rfl

/-! Lemmas about the Driver. -/

theorem drive_zero (fetch : Nat → Nat → FetchOutcome) (pages : Nat) (st : DState) :
    drive fetch pages 0 st =
      if st.hasNext = true ∧ st.page ≤ pages then none
      else some (.done st) := rfl

theorem drive_succ (fetch : Nat → Nat → FetchOutcome) (pages fuel : Nat) (st : DState) :
    drive fetch pages (fuel + 1) st =
      if st.hasNext = true ∧ st.page ≤ pages then
        match driveBody fetch st with
        | .cont st' => drive fetch pages fuel st'
        | .halt r => some r
      else some (.done st) := rfl

theorem drive_exit {fetch : Nat → Nat → FetchOutcome} {pages fuel : Nat} {st : DState}
    (h : ¬(st.hasNext = true ∧ st.page ≤ pages)) :
    drive fetch pages fuel st = some (.done st) := by
  cases fuel with
  | zero => rw [drive_zero, if_neg h]
  | succ fuel => rw [drive_succ, if_neg h]

theorem driveBody_continue_log {fetch : Nat → Nat → FetchOutcome} {st st' : DState}
    (h : driveBody fetch st = .cont st') :
    st'.fetchLog = st.fetchLog ++ [st.page] := by
  unfold driveBody at h
  split at h
  · injection h with h'
    subst h'
    rfl
  · injection h with h'
    subst h'
    rfl
  · cases h
  · cases h
  · cases h

theorem driveBody_halt_aborted {fetch : Nat → Nat → FetchOutcome} {st : DState}
    {r : RunResult} (h : driveBody fetch st = .halt r) :
    ∃ e, r = .aborted e (abortState st) := by
  unfold driveBody at h
  split at h
  · cases h
  · cases h
  · injection h with h'
    exact ⟨_, h'.symm⟩
  · injection h with h'
    exact ⟨_, h'.symm⟩
  · injection h with h'
    exact ⟨_, h'.symm⟩

theorem drive_done_log_mono (fetch : Nat → Nat → FetchOutcome) (pages : Nat) :
    ∀ (fuel : Nat) (st r : DState),
      drive fetch pages fuel st = some (.done r) →
      st.fetchLog.length ≤ r.fetchLog.length := by
  intro fuel
  induction fuel with
  | zero =>
    intro st r h
    rw [drive_zero] at h
    split at h
    · cases h
    · injection h with h'
      injection h' with h2
      subst h2
      exact Nat.le_refl _
  | succ fuel ih =>
    intro st r h
    rw [drive_succ] at h
    split at h
    next hcond =>
      cases hb : driveBody fetch st with
      | cont st' =>
        rw [hb] at h
        have h1 := ih st' r h
        have h2 := driveBody_continue_log hb
        rw [h2] at h1
        simp at h1
        omega
      | halt rr =>
        rw [hb] at h
        injection h with h'
        obtain ⟨e, he⟩ := driveBody_halt_aborted hb
        rw [he] at h'
        cases h'
    next hcond =>
      injection h with h'
      injection h' with h2
      subst h2
      exact Nat.le_refl _

theorem drive_eq_done_self_iff (fetch : Nat → Nat → FetchOutcome) (pages fuel : Nat)
    (st : DState) :
    drive fetch pages fuel st = some (.done st) ↔
      ¬(st.hasNext = true ∧ st.page ≤ pages) := by
  constructor
  · intro h
    by_contra hcond
    cases fuel with
    | zero =>
      rw [drive_zero, if_pos hcond] at h
      cases h
    | succ fuel =>
      rw [drive_succ, if_pos hcond] at h
      cases hb : driveBody fetch st with
      | cont st' =>
        rw [hb] at h
        have h1 := drive_done_log_mono fetch pages fuel st' st h
        have h2 := driveBody_continue_log hb
        rw [h2] at h1
        simp at h1
      | halt rr =>
        rw [hb] at h
        injection h with h'
        obtain ⟨e, he⟩ := driveBody_halt_aborted hb
        rw [he] at h'
        cases h'
  · intro h
    exact drive_exit h

theorem drive_total_invariant (fetch : Nat → Envelope) (pages : Nat) :
    ∀ (fuel : Nat) (st fin : DState),
      st.total = (st.fetchLog.map (mappedCount fetch)).sum →
      drive (fun p _ => .success (fetch p)) pages fuel st = some (.done fin) →
      fin.total = (fin.fetchLog.map (mappedCount fetch)).sum := by
  intro fuel
  induction fuel with
  | zero =>
    intro st fin hinv h
    rw [drive_zero] at h
    split at h
    · cases h
    · injection h with h'
      injection h' with h2
      subst h2
      exact hinv
  | succ fuel ih =>
    intro st fin hinv h
    rw [drive_succ] at h
    split at h
    next hcond =>
      have hb : driveBody (fun p _ => .success (fetch p)) st =
          .cont (advanceState st (fetch st.page)) := rfl
      rw [hb] at h
      apply ih _ _ _ h
      have hlog : (advanceState st (fetch st.page)).fetchLog =
          st.fetchLog ++ [st.page] := rfl
      have htot : (advanceState st (fetch st.page)).total =
          st.total + (buildRows (fetch st.page).media).length := by
        show (if buildRows (fetch st.page).media = [] then st.total
          else st.total + (buildRows (fetch st.page).media).length) = _
        split
        next he => rw [he]; simp
        next => rfl
      rw [htot, hlog, List.map_append, List.sum_append, hinv]
      simp [mappedCount]
    next hcond =>
      injection h with h'
      injection h' with h2
      subst h2
      exact hinv

/-! Projections of a run result, and the concrete mock fetchers and items
used by the scenario claims. -/

/-- Decides whether a run ended with the loop condition turning false (the
summary line of source line 156). -/
def isDone : Option RunResult → Bool
  | some (.done _) => true
  | _ => false

/-- Pages passed to `fetch_page`, one entry per call, of a finished run. -/
def fetchLogOf : Option RunResult → List Nat
  | some (.done st) => st.fetchLog
  | some (.aborted _ st) => st.fetchLog
  | none => []

/-- Retry diagnostics `(page, wait)` of a finished run. -/
def waitLogOf : Option RunResult → List (Nat × Nat)
  | some (.done st) => st.waitLog
  | some (.aborted _ st) => st.waitLog
  | none => []

/-- Identifiers of the rows of the store of a finished run, in row order. -/
def storeIds : Option RunResult → List (Option Int)
  | some (.done st) => st.store.map Row.id
  | some (.aborted _ st) => st.store.map Row.id
  | none => []

/-- Value of `total_inserted` of a finished run. -/
def totalOf : Option RunResult → Nat
  | some (.done st) => st.total
  | some (.aborted _ st) => st.total
  | none => 0

/-- A minimal raw item with identifier 1 and every other field absent. -/
def itemA : Item :=
  { id := some 1, title := none, description := none, genres := none
    tags := none, averageScore := none, studios := none }

/-- A minimal raw item with identifier 2 and every other field absent. -/
def item2 : Item :=
  { id := some 2, title := none, description := none, genres := none
    tags := none, averageScore := none, studios := none }

/-- Mock fetcher that always reports a next page. -/
def alwaysNext : Nat → Envelope := fun _ => { hasNextPage := true, media := [] }

/-- Mock fetcher that reports `hasNextPage = false` on every page. -/
def stopAt1 : Nat → Envelope := fun _ => { hasNextPage := false, media := [itemA] }

/-- Mock fetcher that raises `HTTPError 429` on the first attempt at
page 2 and succeeds everywhere else; page 2 is the last page. -/
def fetch7 : Nat → Nat → FetchOutcome := fun p a =>
  if p = 2 ∧ a = 0 then .httpError (some 429)
  else .success (if p = 1 then { hasNextPage := true, media := [itemA] }
    else { hasNextPage := false, media := [item2] })

/-- Mock fetcher that serves the item with identifier 1 on page 1 and
again on page 2 (two pages in total). -/
def dupFetch : Nat → Envelope := fun p =>
  if p = 1 then { hasNextPage := true, media := [itemA] }
  else { hasNextPage := false, media := [itemA] }

/-- Mock fetcher whose every call raises `HTTPError 500`. -/
def wFetchHttp : Nat → Nat → FetchOutcome := fun _ _ => .httpError (some 500)

/-- Mock fetcher whose every call succeeds with an empty continuing page. -/
def wFetchOk : Nat → Nat → FetchOutcome := fun _ _ =>
  .success { hasNextPage := true, media := [] }

/-- A loop state beyond the page budget, used to exercise the exit
condition. -/
def wSt : DState :=
  { page := 4, attempt := 0, hasNext := true, store := [], total := 0
    fetchLog := [], waitLog := [] }

/-- Mock fetcher reporting one empty final page, with its final state. -/
def wFetch : Nat → Envelope := fun _ => { hasNextPage := false, media := [] }

/-- Final state of `runOk wFetch 1`. -/
def wFin : DState :=
  { page := 2, attempt := 0, hasNext := false, store := [], total := 0
    fetchLog := [1], waitLog := [] }

/-- Claim C1 (corrected): only a non-2xx HTTP response (`HTTPError`,
optionally carrying a status code) is recovered by retrying the same page
after `retryWait status` seconds; a per-call timeout, a connection
failure and a service-error `ProtocolError` are all uncaught by the
`except requests.HTTPError` handler and abort the run.  The original
claim, that timeouts and connection failures are also retried, is refuted
by `fetch_timeout_aborts_cex`. -/
theorem httpError_retried_other_transport_aborts :
    (∀ (fetch : Nat → Nat → FetchOutcome) (pages fuel : Nat) (st : DState)
      (s : Option Nat),
      st.hasNext = true → st.page ≤ pages →
      fetch st.page st.attempt = .httpError s →
      drive fetch pages (fuel + 1) st = drive fetch pages fuel (retryState st s)) ∧
    (∀ (fetch : Nat → Nat → FetchOutcome) (pages fuel : Nat) (st : DState),
      st.hasNext = true → st.page ≤ pages →
      fetch st.page st.attempt = .timeoutError →
      drive fetch pages (fuel + 1) st =
        some (.aborted .timeoutError (abortState st))) ∧
    (∀ (fetch : Nat → Nat → FetchOutcome) (pages fuel : Nat) (st : DState),
      st.hasNext = true → st.page ≤ pages →
      fetch st.page st.attempt = .connectionError →
      drive fetch pages (fuel + 1) st =
        some (.aborted .connectionError (abortState st))) ∧
    (∀ (fetch : Nat → Nat → FetchOutcome) (pages fuel : Nat) (st : DState),
      st.hasNext = true → st.page ≤ pages →
      fetch st.page st.attempt = .protocolError →
      drive fetch pages (fuel + 1) st =
        some (.aborted .protocolError (abortState st))) ∧
    (∀ (st : DState) (s : Option Nat), (retryState st s).page = st.page) := by
  refine ⟨?_, ?_, ?_, ?_, fun st s => rfl⟩
  · intro fetch pages fuel st s h1 h2 hf
    rw [drive_succ, if_pos ⟨h1, h2⟩]
    have hb : driveBody fetch st = .cont (retryState st s) := by
      unfold driveBody
      rw [hf]
    rw [hb]
  · intro fetch pages fuel st h1 h2 hf
    rw [drive_succ, if_pos ⟨h1, h2⟩]
    have hb : driveBody fetch st = .halt (.aborted .timeoutError (abortState st)) := by
      unfold driveBody
      rw [hf]
    rw [hb]
  · intro fetch pages fuel st h1 h2 hf
    rw [drive_succ, if_pos ⟨h1, h2⟩]
    have hb : driveBody fetch st =
        .halt (.aborted .connectionError (abortState st)) := by
      unfold driveBody
      rw [hf]
    rw [hb]
  · intro fetch pages fuel st h1 h2 hf
    rw [drive_succ, if_pos ⟨h1, h2⟩]
    have hb : driveBody fetch st =
        .halt (.aborted .protocolError (abortState st)) := by
      unfold driveBody
      rw [hf]
    rw [hb]

/-- Claim C1 counterexample: against a fetcher whose page-1 call times out
(`requests.Timeout`, a transport failure with an absent status code), the
run aborts after a single fetch instead of retrying; likewise for a
connection failure. -/
theorem fetch_timeout_aborts_cex :
    drive (fun _ _ => .timeoutError) 10 20 initState =
      some (.aborted .timeoutError { initState with fetchLog := [1] }) ∧
    drive (fun _ _ => .connectionError) 10 20 initState =
      some (.aborted .connectionError { initState with fetchLog := [1] }) ∧
    fetchLogOf (drive (fun _ _ => .timeoutError) 10 20 initState) = [1] := by
  refine ⟨?_, ?_, ?_⟩ <;> decide

/-- Witness for C1: the classification applied at concrete states. -/
theorem httpError_retried_other_transport_aborts_witness :
    drive wFetchHttp 5 4 initState =
      drive wFetchHttp 5 3 (retryState initState (some 500)) ∧
    drive (fun _ _ => .timeoutError) 5 4 initState =
      some (.aborted .timeoutError (abortState initState)) ∧
    drive (fun _ _ => .connectionError) 5 4 initState =
      some (.aborted .connectionError (abortState initState)) ∧
    drive (fun _ _ => .protocolError) 5 4 initState =
      some (.aborted .protocolError (abortState initState)) :=
  ⟨httpError_retried_other_transport_aborts.1 wFetchHttp 5 3 initState (some 500)
      rfl (by decide) rfl,
    httpError_retried_other_transport_aborts.2.1 (fun _ _ => .timeoutError) 5 3
      initState rfl (by decide) rfl,
    httpError_retried_other_transport_aborts.2.2.1 (fun _ _ => .connectionError) 5 3
      initState rfl (by decide) rfl,
    httpError_retried_other_transport_aborts.2.2.2.1 (fun _ _ => .protocolError) 5 3
      initState rfl (by decide) rfl⟩

/-- Claim C5 (confirmed): the loop returns its state as `Done` exactly
when the continuation flag is false or the page budget is exhausted; on a
successful fetch inside the budget it advances to the next page; with a
budget of 3 pages and a fetcher always reporting `hasNextPage = true`,
exactly the pages 1, 2, 3 are fetched and the run ends in `Done`; with
page 1 reporting `hasNextPage = false`, exactly one fetch is issued. -/
theorem driver_pagination_termination :
    (∀ (fetch : Nat → Nat → FetchOutcome) (pages fuel : Nat) (st : DState),
      drive fetch pages fuel st = some (.done st) ↔
        ¬(st.hasNext = true ∧ st.page ≤ pages)) ∧
    (∀ (fetch : Nat → Nat → FetchOutcome) (pages fuel : Nat) (st : DState)
      (env : Envelope),
      st.hasNext = true → st.page ≤ pages →
      fetch st.page st.attempt = .success env →
      drive fetch pages (fuel + 1) st =
        drive fetch pages fuel (advanceState st env)) ∧
    (∀ (st : DState) (env : Envelope), (advanceState st env).page = st.page + 1) ∧
    isDone (runOk alwaysNext 3) = true ∧
    fetchLogOf (runOk alwaysNext 3) = [1, 2, 3] ∧
    isDone (runOk stopAt1 10) = true ∧
    fetchLogOf (runOk stopAt1 10) = [1] := by
  refine ⟨?_, ?_, fun st env => rfl, by decide, by decide, by decide, by decide⟩
  · intro fetch pages fuel st
    exact drive_eq_done_self_iff fetch pages fuel st
  · intro fetch pages fuel st env h1 h2 hf
    rw [drive_succ, if_pos ⟨h1, h2⟩]
    have hb : driveBody fetch st = .cont (advanceState st env) := by
      unfold driveBody
      rw [hf]
    rw [hb]

/-- Witness for C5: the exit characterization and the advance step applied
at concrete states. -/
theorem driver_pagination_termination_witness :
    (drive (fun _ _ => .protocolError) 3 5 wSt = some (.done wSt) ↔
      ¬(wSt.hasNext = true ∧ wSt.page ≤ 3)) ∧
    drive wFetchOk 3 3 initState =
      drive wFetchOk 3 2 (advanceState initState { hasNextPage := true, media := [] }) :=
  ⟨driver_pagination_termination.1 (fun _ _ => .protocolError) 3 5 wSt,
    driver_pagination_termination.2.1 wFetchOk 3 2 initState
      { hasNextPage := true, media := [] } rfl (by decide) rfl⟩

/-- Claim C7 (corrected): the retry-on-TransportError clause holds only
for `HTTPError` — a transport failure with an absent status code (a
timeout or connection failure) is not retried at all but aborts the run
(see `transport_error_not_always_retried_cex`).  On `HTTPError` the same
page is retried after a wait that is strictly larger for status 429
(5 seconds) than for any other status (3 seconds); against a fetcher
failing once with 429 on page 2 and then succeeding, the run ends in
`Done`, page 2 is fetched exactly twice (log `[1, 2, 2]`), the single
retry waited 5 seconds, and the store holds exactly one row per
identifier (no duplicates for page 2's records). -/
theorem driver_retry_429_backoff :
    (∀ s : Option Nat, s ≠ some 429 → retryWait s < retryWait (some 429)) ∧
    (∀ (fetch : Nat → Nat → FetchOutcome) (pages fuel : Nat) (st : DState)
      (s : Option Nat),
      st.hasNext = true → st.page ≤ pages →
      fetch st.page st.attempt = .httpError s →
      drive fetch pages (fuel + 1) st = drive fetch pages fuel (retryState st s) ∧
        (retryState st s).page = st.page) ∧
    isDone (drive fetch7 3 10 initState) = true ∧
    fetchLogOf (drive fetch7 3 10 initState) = [1, 2, 2] ∧
    waitLogOf (drive fetch7 3 10 initState) = [(2, 5)] ∧
    storeIds (drive fetch7 3 10 initState) = [some 1, some 2] := by
  refine ⟨?_, ?_, by decide, by decide, by decide, by decide⟩
  · intro s hs
    unfold retryWait
    rw [if_neg hs, if_pos rfl]
    decide
  · intro fetch pages fuel st s h1 h2 hf
    refine ⟨?_, rfl⟩
    rw [drive_succ, if_pos ⟨h1, h2⟩]
    have hb : driveBody fetch st = .cont (retryState st s) := by
      unfold driveBody
      rw [hf]
    rw [hb]

/-- Mock fetcher for the C7 counterexample: page 1 succeeds, every
attempt at page 2 times out (a transport failure whose status code is
absent). -/
def fetchTimeoutP2 : Nat → Nat → FetchOutcome := fun p _ =>
  if p = 1 then .success { hasNextPage := true, media := [itemA] }
  else .timeoutError

/-- Claim C7 counterexample: a transport failure with an absent status
code on page 2 is not retried with any delay: page 2 is fetched exactly
once, no retry diagnostic is recorded, and the run aborts instead of
ending in `Done` — refuting the original claim's retry-on-every-
TransportError clause. -/
theorem transport_error_not_always_retried_cex :
    isDone (drive fetchTimeoutP2 3 10 initState) = false ∧
    fetchLogOf (drive fetchTimeoutP2 3 10 initState) = [1, 2] ∧
    waitLogOf (drive fetchTimeoutP2 3 10 initState) = [] := by
  refine ⟨?_, ?_, ?_⟩ <;> decide

/-- Witness for C7: the wait comparison and the retry step applied at
concrete inputs. -/
theorem driver_retry_429_backoff_witness :
    retryWait none < retryWait (some 429) ∧
    (drive wFetchHttp 5 2 initState =
        drive wFetchHttp 5 1 (retryState initState (some 500)) ∧
      (retryState initState (some 500)).page = initState.page) :=
  ⟨driver_retry_429_backoff.1 none (by decide),
    driver_retry_429_backoff.2.1 wFetchHttp 5 1 initState (some 500)
      rfl (by decide) rfl⟩

/-- Claim C10 (confirmed): the reported total is the sum, over the pages
recorded in the fetch log, of the number of items on that page with a
non-null identifier (the length of the mapped batch), not the number of
distinct persisted rows; with the same identifier served on two pages,
the total is 2 while the store holds a single row. -/
theorem total_counts_upsert_attempts :
    (∀ media : List Item,
      (buildRows media).length =
        ((media.filter (fun m => m.id.isSome)).length)) ∧
    (∀ (fetch : Nat → Envelope) (pages : Nat) (fin : DState),
      runOk fetch pages = some (.done fin) →
      fin.total = (fin.fetchLog.map (mappedCount fetch)).sum) ∧
    totalOf (runOk dupFetch 5) = 2 ∧
    storeIds (runOk dupFetch 5) = [some 1] ∧
    (storeIds (runOk dupFetch 5)).length < totalOf (runOk dupFetch 5) := by
  refine ⟨?_, ?_, by decide, by decide, by decide⟩
  · intro media
    rw [buildRows_eq, List.length_map]
  · intro fetch pages fin h
    exact drive_total_invariant fetch pages (pages + 1) initState fin rfl h

/-- Witness for C10: the total-equals-log-sum law applied to a concrete
one-page run. -/
theorem total_counts_upsert_attempts_witness :
    wFin.total = (wFin.fetchLog.map (mappedCount wFetch)).sum :=
  total_counts_upsert_attempts.2.1 wFetch 1 wFin (by decide)

/-- Field set A for identifier 7. -/
def rowA : Row :=
  { id := some 7, title_romaji := some "A", title_english := some "Aen"
    description := "descA", genres := "[\"g1\"]", tags := "[]"
    average_score := some 80, studios := "[]" }

/-- Field set B for identifier 7, sharing no non-key field value with
`rowA`. -/
def rowB : Row :=
  { id := some 7, title_romaji := some "B", title_english := none
    description := "descB", genres := "[]", tags := "[\"t\"]"
    average_score := none, studios := "[\"s\"]" }

/-- Claim C6 (confirmed): upserting any batch preserves the invariant that
every identifier occurs in at most one row; and after upserting a row
with some identifier and then a second row with the same identifier, the
rows carrying that identifier are exactly `[b]` — the whole second row,
no field retained from the first (last-write-wins).  Taking `a = b` gives
idempotence: upserting the same record twice leaves exactly one row equal
to the input. -/
theorem store_upsert_last_write_wins :
    (∀ (s rows : List Row),
      (s.map Row.id).Nodup → ((upsertBatch s rows).map Row.id).Nodup) ∧
    (∀ (s : List Row) (a b : Row),
      (s.map Row.id).Nodup → a.id = b.id →
      (upsertBatch (upsertBatch s [a]) [b]).filter (fun x => x.id = b.id) = [b]) := by
  constructor
  · intro s rows h
    exact upsertBatch_nodup rows h
  · intro s a b h hab
    show (upsertRow (upsertRow s a) b).filter (fun x => x.id = b.id) = [b]
    exact upsertRow_filter b (upsertRow_nodup a h)

/-- Witness for C6: identifier 7 upserted with field set A then field
set B leaves exactly the row B. -/
theorem store_upsert_last_write_wins_witness :
    ((upsertBatch [] [rowA, rowB]).map Row.id).Nodup ∧
    (upsertBatch (upsertBatch [] [rowA]) [rowB]).filter
      (fun x => x.id = rowB.id) = [rowB] :=
  ⟨store_upsert_last_write_wins.1 [] [rowA, rowB] (by decide),
    store_upsert_last_write_wins.2 [] rowA rowB (by decide) (by decide)⟩

/-- Claim C8 (confirmed): the batch built from a page is exactly the
in-order image under `mapRow` of the items whose identifier is present —
an item with an absent identifier contributes no row, every other item of
the page is mapped and included. -/
theorem mapper_drops_items_without_id :
    (∀ media : List Item,
      buildRows media = (media.filter (fun m => m.id.isSome)).map mapRow) ∧
    (∀ m : Item, (mapRow m).id = m.id) :=
  ⟨buildRows_eq, fun m => rfl⟩

/-- Raw item of the C9 example: `{id: 5, title: {romaji: "X"},
tags: [{name: "A"}, null, {name: null}], studios: null}`, every other
field absent. -/
def item9 : Item :=
  { id := some 5, title := some { romaji := some "X", english := none }
    description := none, genres := none
    tags := some [some { name := some "A" }, none, some { name := none }]
    averageScore := none, studios := none }

/-- Claim C9 (confirmed): the example item maps to a row whose tags are
the serialization of `["A"]` (null entries and nameless entries dropped),
whose studios are the serialization of the empty list, and whose
alternate-language title is null. -/
theorem mapper_defaults_example :
    (mapRow item9).tags = jsonDumps ["A"] ∧
    jsonDumps ["A"] = "[\"A\"]" ∧
    (mapRow item9).studios = jsonDumps [] ∧
    jsonDumps ([] : List String) = "[]" ∧
    (mapRow item9).title_english = none := by
  refine ⟨?_, ?_, ?_, ?_, ?_⟩ <;> decide

/-- Claim C2 (corrected): each of the five entities decodes to its
literal character, but `&amp;` is decoded first in the replace chain, so
an input containing the literal text `&amp;lt;` is double-decoded — its
output contains the character `<` where the original claim requires the
literal text `&lt;`. -/
theorem entity_decode_amp_first_double_decodes :
    cleanDescriptionS "a&amp;b" = "a&b" ∧
    cleanDescriptionS "a&lt;b" = "a<b" ∧
    cleanDescriptionS "a&gt;b" = "a>b" ∧
    cleanDescriptionS "a&quot;b" = "a\"b" ∧
    cleanDescriptionS "a&#39;b" = "a'b" ∧
    cleanDescriptionS "a&amp;lt;b" = "a<b" := by
  refine ⟨?_, ?_, ?_, ?_, ?_, ?_⟩ <;>
    simp [cleanDescriptionS, cleanDescription, subBr, matchBr, subTag, firstGtIdx,
      decodeEntities, replaceNE, isPre, subWsNl, matchWsNl, lastNlIdx, subNl3,
      stripList, dropTrailWs, isWs, pyWs]

/-- Claim C2 counterexample: for the input `"&amp;lt;"` the output is the
single character `"<"` — the `&lt;` produced by decoding `&amp;` is
itself decoded — whereas the claim requires the output to contain the
literal text `"&lt;"` and not the character `"<"`. -/
theorem entity_double_decode_cex :
    cleanDescriptionS "&amp;lt;" = "<" ∧
    containsPat "&lt;".data (cleanDescription "&amp;lt;".data) = false ∧
    containsPat "<".data (cleanDescription "&amp;lt;".data) = true := by
  have he : cleanDescription "&amp;lt;".data = "<".data := by
    simp [cleanDescription, subBr, matchBr, subTag, firstGtIdx, decodeEntities,
      replaceNE, isPre, subWsNl, matchWsNl, lastNlIdx, subNl3, stripList,
      dropTrailWs, isWs, pyWs]
  refine ⟨?_, ?_, ?_⟩
  · show String.mk (cleanDescription "&amp;lt;".data) = "<"
    rw [he]
  · rw [he]
    decide
  · rw [he]
    decide

/-- Claim C3 (corrected): the Normalizer is idempotent on every input
whose normalized form contains neither `'<'` nor `'&'`: a second pass
then finds no markup, no entity and no collapsible whitespace.  It is not
idempotent in general (see `normalizer_not_idempotent_cex`), because
entity decoding can materialize new markup or new entities. -/
theorem normalizer_idempotent_on_stable_outputs (s : List Char)
    (h1 : '<' ∉ cleanDescription s) (h2 : '&' ∉ cleanDescription s) :
    cleanDescription (cleanDescription s) = cleanDescription s :=
  cleanDescription_fix h1 h2

/-- Claim C3 counterexample: for `"&lt;b&gt;"` one pass yields `"<b>"`,
and a second pass strips that as markup, yielding `""` — the Normalizer
is not idempotent. -/
theorem normalizer_not_idempotent_cex :
    cleanDescription "&lt;b&gt;".data = "<b>".data ∧
    cleanDescription (cleanDescription "&lt;b&gt;".data) = [] ∧
    cleanDescription (cleanDescription "&lt;b&gt;".data) ≠
      cleanDescription "&lt;b&gt;".data := by
  have h1 : cleanDescription "&lt;b&gt;".data = "<b>".data := by
    simp [cleanDescription, subBr, matchBr, subTag, firstGtIdx, decodeEntities,
      replaceNE, isPre, subWsNl, matchWsNl, lastNlIdx, subNl3, stripList,
      dropTrailWs, isWs, pyWs]
  have h2 : cleanDescription "<b>".data = [] := by
    simp [cleanDescription, subBr, matchBr, subTag, firstGtIdx, decodeEntities,
      replaceNE, isPre, subWsNl, matchWsNl, lastNlIdx, subNl3, stripList,
      dropTrailWs, isWs, pyWs]
  refine ⟨h1, ?_, ?_⟩
  · rw [h1, h2]
  · rw [h1, h2]
    decide

/-- Witness for C3: the amended idempotence applied to `"ok"`, whose
normal form contains neither `'<'` nor `'&'`. -/
theorem normalizer_idempotent_on_stable_outputs_witness :
    '<' ∉ cleanDescription "ok".data ∧
    '&' ∉ cleanDescription "ok".data ∧
    cleanDescription (cleanDescription "ok".data) = cleanDescription "ok".data := by
  have he : cleanDescription "ok".data = "ok".data := by
    simp [cleanDescription, subBr, matchBr, subTag, firstGtIdx, decodeEntities,
      replaceNE, isPre, subWsNl, matchWsNl, lastNlIdx, subNl3, stripList,
      dropTrailWs, isWs, pyWs]
  exact ⟨by rw [he]; decide, by rw [he]; decide,
    normalizer_idempotent_on_stable_outputs "ok".data
      (by rw [he]; decide) (by rw [he]; decide)⟩

/-- Claim C4 (corrected): for an input with no markup (the two markup
passes leave it unchanged), none of the five entities, and no whitespace
character immediately followed by a newline, the output is the input with
only leading and trailing whitespace stripped.  The last hypothesis is
forced by `normalizer_collapses_interior_whitespace_cex`: without it the
pass `re.sub(r"\s+\n", "\n", ...)` rewrites interior whitespace. -/
theorem normalizer_trim_only_plain_inputs (s : List Char)
    (hbr : subBr s = s) (htag : subTag s = s)
    (hamp : containsPat "&amp;".data s = false)
    (hlt : containsPat "&lt;".data s = false)
    (hgt : containsPat "&gt;".data s = false)
    (hquot : containsPat "&quot;".data s = false)
    (h39 : containsPat "&#39;".data s = false)
    (hws : noWsNl s = true) :
    cleanDescription s = stripList s :=
  cleanDescription_plain hbr htag hamp hlt hgt hquot h39 hws

/-- Claim C4 counterexample: `"a\n\nb"` contains no markup and no entity,
yet its output is `"a\nb"` — the interior blank line is collapsed by
`re.sub(r"\s+\n", "\n", ...)` — so the output is not the merely trimmed
input. -/
theorem normalizer_collapses_interior_whitespace_cex :
    subBr "a\n\nb".data = "a\n\nb".data ∧
    subTag "a\n\nb".data = "a\n\nb".data ∧
    containsPat "&amp;".data "a\n\nb".data = false ∧
    containsPat "&lt;".data "a\n\nb".data = false ∧
    containsPat "&gt;".data "a\n\nb".data = false ∧
    containsPat "&quot;".data "a\n\nb".data = false ∧
    containsPat "&#39;".data "a\n\nb".data = false ∧
    cleanDescription "a\n\nb".data = "a\nb".data ∧
    stripList "a\n\nb".data = "a\n\nb".data ∧
    cleanDescription "a\n\nb".data ≠ stripList "a\n\nb".data := by
  have h1 : cleanDescription "a\n\nb".data = "a\nb".data := by
    simp [cleanDescription, subBr, matchBr, subTag, firstGtIdx, decodeEntities,
      replaceNE, isPre, subWsNl, matchWsNl, lastNlIdx, subNl3, stripList,
      dropTrailWs, isWs, pyWs]
  have h2 : stripList "a\n\nb".data = "a\n\nb".data := by decide
  refine ⟨?_, ?_, by decide, by decide, by decide, by decide, by decide, h1, h2, ?_⟩
  · simp [subBr, matchBr, isWs, pyWs]
  · simp [subTag, firstGtIdx]
  · rw [h1, h2]
    decide

/-- Witness for C4: the trimmed-only law applied to `"  a b  "`. -/
theorem normalizer_trim_only_plain_inputs_witness :
    subBr "  a b  ".data = "  a b  ".data ∧
    subTag "  a b  ".data = "  a b  ".data ∧
    noWsNl "  a b  ".data = true ∧
    cleanDescription "  a b  ".data = stripList "  a b  ".data := by
  have hbr : subBr "  a b  ".data = "  a b  ".data := by
    simp [subBr, matchBr, isWs, pyWs]
  have htag : subTag "  a b  ".data = "  a b  ".data := by
    simp [subTag, firstGtIdx]
  exact ⟨hbr, htag, by decide,
    normalizer_trim_only_plain_inputs "  a b  ".data hbr htag
      (by decide) (by decide) (by decide) (by decide) (by decide) (by decide)⟩

end Aniaifu
